import Mathlib

/-!
Verification development for the `vstack` unit
(`refinery/units/formats/exe/vstack.py`) and the `recode` unit
(`refinery/units/encoding/recode.py`).

The Python source is shallowly embedded: pure computations become Lean
functions, the mutable `EmuState` dataclass becomes a structure threaded
through the hook functions, and the emulator / loader / disassembler
collaborators appear as explicit inputs (each memory-write event carries the
live stack-pointer value the hook would read from the emulator; each
instruction record carries the information the emulator and disassembler
would supply).  Machine integers are modelled as `Nat` with explicit masking
where the source masks (`value & ((1 << (size * 8)) - 1)`).
-/

namespace VStack

/-! ## Architecture tables (`vstack._uc_arch`, the `sp` table in `vstack.process`) -/

/-- Architecture tags reported by the executable loader, as consumed by the
tables in `vstack.py` (`Arch` from `refinery.lib.executable`; exactly these
eleven members appear in the unit's tables). -/
inductive Arch
  | X8632 | X8664 | ARM32 | ARM64 | MIPS16 | MIPS32 | MIPS64
  | PPC32 | PPC64 | SPARC32 | SPARC64
deriving DecidableEq, Fintype, Repr

/-- Unicorn stack-pointer register identifiers used in the `sp` table of
`vstack.process`. -/
inductive SPReg
  | ESP | RSP | ARM_SP | MIPS_SP | SPARC_SP
deriving DecidableEq, Repr

/-- Unicorn architecture constants appearing in `vstack._uc_arch`. -/
inductive UcArch
  | X86 | ARM | MIPS | PPC | SPARC
deriving DecidableEq, Repr

/-- Unicorn mode constants appearing in `vstack._uc_arch`. -/
inductive UcMode
  | M16 | M32 | M64 | MArm | MThumb | MV9
deriving DecidableEq, Repr

/-- The emulator back-end table `vstack._uc_arch` (lines 301-315), a total
dictionary over the eleven architecture tags. -/
def uc_arch : Arch → UcArch × UcMode
  | .X8632 => (.X86, .M32)
  | .X8664 => (.X86, .M64)
  | .ARM32 => (.ARM, .MArm)
  | .ARM64 => (.ARM, .MThumb)
  | .MIPS16 => (.MIPS, .M16)
  | .MIPS32 => (.MIPS, .M32)
  | .MIPS64 => (.MIPS, .M64)
  | .PPC32 => (.PPC, .M32)
  | .PPC64 => (.PPC, .M64)
  | .SPARC32 => (.SPARC, .M32)
  | .SPARC64 => (.SPARC, .MV9)

/-- The entry list of the stack-pointer dictionary literal in `vstack.process`
(lines 128-138), transcribed row by row.  The source literally lists
`Arch.ARM32` twice (lines 131 and 132) and has no row for `ARM64`, `PPC32`
or `PPC64`. -/
def sp_entries : List (Arch × SPReg) :=
  [ (.X8632, .ESP)
  , (.X8664, .RSP)
  , (.ARM32, .ARM_SP)
  , (.ARM32, .ARM_SP)
  , (.MIPS16, .MIPS_SP)
  , (.MIPS32, .MIPS_SP)
  , (.MIPS64, .MIPS_SP)
  , (.SPARC32, .SPARC_SP)
  , (.SPARC64, .SPARC_SP) ]

/-- Lookup in the stack-pointer dictionary: a Python `dict` literal keeps the
last binding for a repeated key, and subscripting a missing key raises
`KeyError` (modelled as `none`, which aborts the entry point fatally). -/
def sp_lookup (a : Arch) : Option SPReg :=
  (sp_entries.reverse.find? (fun e => e.1 == a)).map (·.2)

/-- Per-entry-point setup in `vstack.process` resolves a stack-pointer
register by subscripting the `sp` dictionary; it succeeds exactly when the
dictionary has a row for the loader-reported architecture. -/
def setupResolvesSP (a : Arch) : Bool :=
  (sp_lookup a).isSome

/-- The architectures the specification lists as supported (all eleven). -/
def specSupported : List Arch :=
  [.X8632, .X8664, .ARM32, .ARM64, .MIPS16, .MIPS32, .MIPS64,
   .PPC32, .PPC64, .SPARC32, .SPARC64]

/-! ## Size ranges (`refinery.lib.types.bounds`)

Modelled from the spec: `bounds` lives in `refinery/lib/types.py`, which is
not under `src/`; per the spec a range `MIN:MAX` is the half-open interval
`[MIN, MAX)` with a missing bound unbounded. -/

/-- A user-supplied size range such as `patch_range` or `write_range`. -/
structure SizeRange where
  lo : Nat
  hi : Option Nat
deriving DecidableEq, Repr

/-- Membership of a size in a half-open range. -/
def memRange (n : Nat) (b : SizeRange) : Bool :=
  b.lo ≤ n && (match b.hi with | none => true | some h => n < h)

/-- The unit's configuration arguments used by the hooks and the driver. -/
structure Config where
  wait : Nat
  calls_wait : Bool
  write_range : SizeRange
  patch_range : SizeRange
deriving DecidableEq, Repr

/-! ## The write tracker (`intervaltree` as used by `vstack`)

The unit stores every recorded write in an `intervaltree.IntervalTree` via
`addi(address, address + size + 1)` followed by `merge_overlaps()`.  The
library's `merge_overlaps` (with its default arguments, as called here)
merges intervals that truly overlap; intervals that merely touch are kept
separate — which is exactly why the source stores `[a, a + size + 1)`, so
that writes to adjacent ranges produce genuinely overlapping stored
intervals.  The tree is modelled as a begin-sorted list of half-open
intervals. -/

/-- A stored half-open interval `[begin, end)`. -/
abbrev Ivl := Nat × Nat

/-- Insert one interval into a begin-sorted list. -/
def insertIvl (x : Ivl) : List Ivl → List Ivl
  | [] => [x]
  | y :: ys => if x.1 ≤ y.1 then x :: y :: ys else y :: insertIvl x ys

/-- Sort intervals by their begin point. -/
def sortIvl (l : List Ivl) : List Ivl :=
  l.foldr insertIvl []

/-- Left-to-right sweep merging truly overlapping intervals of a begin-sorted
list; touching intervals are not merged. -/
def mergeGo (cur : Ivl) : List Ivl → List Ivl
  | [] => [cur]
  | j :: rest =>
    if j.1 < cur.2 then mergeGo (cur.1, max cur.2 j.2) rest
    else cur :: mergeGo j rest

/-- `IntervalTree.merge_overlaps()` on the whole stored set. -/
def merge_overlaps (l : List Ivl) : List Ivl :=
  match sortIvl l with
  | [] => []
  | i :: rest => mergeGo i rest

/-- `writes.addi(address, address + size + 1)` followed by
`writes.merge_overlaps()` (vstack.py lines 233-234). -/
def treeAdd (addr size : Nat) (l : List Ivl) : List Ivl :=
  merge_overlaps ((addr, addr + size + 1) :: l)

/-! ## Emulation state (`EmuState` dataclass)

The `executable` and `disassembler` fields are external collaborators: the
disassembler appears as a per-instruction `decodable` flag, and the
`sp_register` read (`emu.reg_read(state.sp_register)`) appears as the `sp`
value carried by each write event. -/

/-- The per-entry-point bookkeeping record of `vstack.py`. -/
structure EmuState where
  address : Nat
  waiting : Nat
  callstack : List Nat
  retaddr : Option Nat
  stop : Option Nat
  previous_address : Nat
  stack_ceiling : Nat
  writes : List Ivl
deriving DecidableEq, Repr

/-- The state constructed at the start of each entry point
(`EmuState(exe, tree, address, disassembler, stop=..., sp_register=sp)` with
the dataclass defaults for the remaining fields). -/
def initState (entry : Nat) (stop : Option Nat) : EmuState :=
  { address := entry
  , waiting := 0
  , callstack := []
  , retaddr := none
  , stop := stop
  , previous_address := 0
  , stack_ceiling := 0
  , writes := [] }

/-! ## The memory-write hook (`vstack._hook_mem_write`) -/

/-- One memory-write event dispatched by the emulator: the written address,
size and raw value, together with the live stack-pointer value the hook
would read back from the emulator, and whether a host interrupt is delivered
while this (handler-less) hook runs. -/
structure WriteEv where
  addr : Nat
  size : Nat
  value : Nat
  sp : Nat
  interrupted : Bool
deriving DecidableEq, Repr

/-- `unsigned_value = value & ((1 << (size * 8)) - 1)`. -/
def uvOf (ev : WriteEv) : Nat :=
  ev.value &&& (2 ^ (ev.size * 8) - 1)

/-- The call-detection prefix of `_hook_mem_write` (lines 216-223): a write
whose masked value equals the predicted fall-through address is treated as a
return-address push; if the shadow call stack was empty the current live SP
is captured as the stack ceiling. -/
def callDetect (ev : WriteEv) (s : EmuState) : EmuState :=
  if uvOf ev = s.address then
    let s' := if s.callstack = [] then { s with stack_ceiling := ev.sp } else s
    { s' with retaddr := some (uvOf ev), callstack := s'.callstack ++ [uvOf ev] }
  else
    { s with retaddr := none }

/-- The ceiling-suppression test of line 225:
`state.stack_ceiling > 0 and address in range(state.stack_ceiling - 0x200,
state.stack_ceiling)`.  (`Nat` truncated subtraction agrees with the Python
`range` lower bound here because addresses are non-negative.) -/
def ceilSupp (s : EmuState) (addr : Nat) : Prop :=
  0 < s.stack_ceiling ∧ s.stack_ceiling - 0x200 ≤ addr ∧ addr < s.stack_ceiling

instance (s : EmuState) (addr : Nat) : Decidable (ceilSupp s addr) := by
  unfold ceilSupp; infer_instance

/-- `vstack._hook_mem_write` (lines 211-243): call detection, ceiling
suppression, waiting reset, write-size filter, interval insertion. -/
def hook_mem_write (cfg : Config) (ev : WriteEv) (s : EmuState) : EmuState :=
  let s1 := callDetect ev s
  if ceilSupp s1 ev.addr then s1
  else
    let s2 := { s1 with waiting := 0 }
    if memRange ev.size cfg.write_range then
      { s2 with writes := treeAdd ev.addr ev.size s2.writes }
    else s2

/-! ## The code hook (`vstack._hook_code`) -/

/-- What the code hook tells the emulator: continue, stop before executing
the pending instruction (stop address reached, wait threshold exceeded, or a
host interrupt caught by the hook's own handler), or stop because the
disassembler refused to decode the instruction. -/
inductive CodeSig
  | proceed | stopBefore | stopDecode
deriving DecidableEq, Repr

/-- The body of `_hook_code` guarded by its `try` (lines 259-295): wait
snapshot, branch / return / false-call detection, inactivity halt, wait
advance, fall-through prediction, decode check.  Note that the false-call
branch pops the shadow call stack but leaves `stack_ceiling` untouched, and
that its local `depth` keeps the pre-pop value while the return branch works
with the decremented one. -/
def hook_code_body (cfg : Config) (pc isize : Nat) (decodable : Bool)
    (s : EmuState) : EmuState × CodeSig :=
  let waiting := s.waiting
  let depth := s.callstack.length
  let s := { s with previous_address := s.address }
  let (s, depth) :=
    if pc ≠ s.address then
      let (s, depth) :=
        if depth ≠ 0 ∧ s.callstack.getLast? = some pc then
          let depth := depth - 1
          let s := { s with callstack := s.callstack.dropLast }
          (if depth = 0 then { s with stack_ceiling := 0 } else s, depth)
        else (s, depth)
      ({ s with address := pc }, depth)
    else if s.retaddr.isSome then
      ({ s with callstack := s.callstack.dropLast, retaddr := none }, depth)
    else (s, depth)
  if waiting > cfg.wait then (s, .stopBefore)
  else
    let s := if depth = 0 ∨ ¬ cfg.calls_wait then { s with waiting := s.waiting + 1 } else s
    let s := { s with address := s.address + isize }
    if decodable then (s, .proceed) else (s, .stopDecode)

/-- `vstack._hook_code` (lines 255-299).  The stop-address check precedes the
`try`; a host interrupt delivered inside the `try` is caught by the hook's
`except` handler, which calls `emu_stop()` and returns `False` — the
interrupt does not escape the hook.  The interrupt is modelled as delivered
at the entry of the `try` block. -/
def hook_code (cfg : Config) (interrupted : Bool) (pc isize : Nat)
    (decodable : Bool) (s : EmuState) : EmuState × CodeSig :=
  if s.stop = some pc then (s, .stopBefore)
  else if interrupted then (s, .stopBefore)
  else hook_code_body cfg pc isize decodable s

/-! ## Emulator memory and the per-entry-point run

The emulator itself is external: a run is driven by a trace of instruction
records, each carrying what the emulator would report (the program counter,
the instruction length, whether the disassembler can decode it, the memory
writes the instruction performs, whether executing it raises a `UcError`,
and whether a host interrupt lands in its code hook). -/

/-- Emulator memory, byte-addressed. -/
def Mem := Nat → Nat

/-- The emulator committing a write to its memory (little-endian byte order,
as for the x86 targets of the spec's scenarios). -/
def writeMem (m : Mem) (w : WriteEv) : Mem :=
  fun a =>
    if w.addr ≤ a ∧ a < w.addr + w.size then (w.value >>> ((a - w.addr) * 8)) &&& 0xFF
    else m a

/-- One instruction of an emulation trace. -/
structure Instr where
  pc : Nat
  isize : Nat
  decodable : Bool
  interrupted : Bool
  ucError : Bool
  writes : List WriteEv
deriving Repr

/-- Why a run ended: the trace was exhausted (emulation reached the end of
the code region), a hook stopped the emulator, the disassembler refused an
instruction, or the emulator raised a `UcError` from `emu_start`. -/
inductive RunEnd
  | outOfCode | hookStop | decodeStop | ucErr
deriving DecidableEq, Repr

/-- Result of running one entry point: instructions executed, final state,
final emulator memory, and the way the run ended. -/
structure RunResult where
  executed : Nat
  state : EmuState
  mem : Mem
  ending : RunEnd

/-- Process the write events of one executing instruction through
`_hook_mem_write`.  Modelled from the spec: a host interrupt delivered in
this hook, which installs no handler for it, propagates out of emulation
(`.error`), discarding the entry point. -/
def execWrites (cfg : Config) : List WriteEv → EmuState × Mem →
    Except Unit (EmuState × Mem)
  | [], sm => .ok sm
  | w :: ws, (s, m) =>
    if w.interrupted then .error ()
    else execWrites cfg ws (hook_mem_write cfg w s, writeMem m w)

/-- Run a trace of instructions: for each one the code hook fires first; if
it lets the instruction through, the instruction executes and its write
events are dispatched. -/
def run (cfg : Config) : List Instr → EmuState → Mem → Nat →
    Except Unit RunResult
  | [], s, m, n => .ok ⟨n, s, m, .outOfCode⟩
  | i :: rest, s, m, n =>
    match hook_code cfg i.interrupted i.pc i.isize i.decodable s with
    | (s', .stopBefore) => .ok ⟨n, s', m, .hookStop⟩
    | (s', .stopDecode) => .ok ⟨n, s', m, .decodeStop⟩
    | (s', .proceed) =>
      if i.ucError then .ok ⟨n, s', m, .ucErr⟩
      else
        match execWrites cfg i.writes (s', m) with
        | .error e => .error e
        | .ok (s'', m') => run cfg rest s'' m' (n + 1)

/-! ## Harvesting (`vstack.process`, lines 198-209) -/

/-- One emitted patch: begin address, reported size `e - b - 1`, and the
bytes read back from emulator memory. -/
structure Patch where
  start : Nat
  size : Nat
  bytes : List Nat
deriving DecidableEq, Repr

/-- `emulator.mem_read(begin, size)`. -/
def memRead (m : Mem) (a n : Nat) : List Nat :=
  (List.range n).map (fun i => m (a + i))

/-- The harvest loop: iterate the interval set (modelled in its natural
address order), keep intervals whose size `e - b - 1` lies in `patch_range`,
and read their bytes back from emulator memory. -/
def harvest (pr : SizeRange) (ws : List Ivl) (m : Mem) : List Patch :=
  ws.filterMap (fun iv =>
    let size := iv.2 - iv.1 - 1
    if memRange size pr then some ⟨iv.1, size, memRead m iv.1 size⟩ else none)

/-- One entry point of `vstack.process`: start emulation (a `UcError` from
`emu_start` is swallowed by the `except` clause, any other ending is normal)
and harvest the recorded intervals; a propagating host interrupt escapes the
unit and nothing is emitted for this entry point. -/
def processEntry (cfg : Config) (trace : List Instr) (s0 : EmuState)
    (m0 : Mem) : Except Unit (List Patch) :=
  match run cfg trace s0 m0 0 with
  | .error e => .error e
  | .ok r => .ok (harvest cfg.patch_range r.state.writes r.mem)

/-! ## The stack-region placer (`vstack._find_stack_location`) -/

/-- Modelled from the spec: `align` lives in `refinery/lib/executable.py`,
which is not under `src/`; per the spec `align(k, v)` rounds `v` up to the
next multiple of `k` and `align(k, v, down=True)` rounds it down.  Python
integers are unbounded and `space.lower - stack_size` may be negative, so
the model uses `Int`. -/
def alignDown (k v : Int) : Int :=
  v - v % k

/-- Rounding up to a multiple of `k` (for positive `k`). -/
def alignUp (k v : Int) : Int :=
  alignDown k (v + k - 1)

/-- `vstack._find_stack_location` (lines 102-112): try
`align(stack_size, space.upper)` above the image, accepting it when
`aligned + stack_size < 1 << pointer_size`; otherwise try
`align(stack_size, space.lower - stack_size, down=True)` below the image,
accepting it when positive; otherwise fail fatally (`none`). -/
def find_stack_location (stackSize : Int) (pointerSize : Nat)
    (spaceLower spaceUpper : Int) : Option Int :=
  if alignUp stackSize spaceUpper + stackSize < 2 ^ pointerSize then
    some (alignUp stackSize spaceUpper)
  else if alignDown stackSize (spaceLower - stackSize) > 0 then
    some (alignDown stackSize (spaceLower - stackSize))
  else
    none

/-! ## Interval-set predicates -/

/-- Two half-open intervals overlap: they share at least one point. -/
abbrev overlaps (a b : Ivl) : Prop :=
  max a.1 b.1 < min a.2 b.2

/-- Two half-open intervals touch: they share an endpoint. -/
abbrev touches (a b : Ivl) : Prop :=
  a.2 = b.1 ∨ b.2 = a.1

/-- No two intervals of the list overlap. -/
def NoOverlap (l : List Ivl) : Prop :=
  l.Pairwise (fun a b => ¬ overlaps a b)

/-- The list is sorted by interval begin points. -/
def SortedB (l : List Ivl) : Prop :=
  l.Pairwise (fun a b => a.1 ≤ b.1)

end VStack

namespace Recode

/-! ## The `recode` unit (`refinery/units/encoding/recode.py`)

Input data is a byte string, modelled as `List Nat`; the `chardet` library is
an external collaborator, modelled as an arbitrary guessing function. -/

/-- Elements of a list at even indices: the Python slice `mv[0::2]`. -/
def stride2 : List Nat → List Nat
  | [] => []
  | [a] => [a]
  | a :: _ :: rest => a :: stride2 rest

/-- `recode.detect` (lines 44-52): if no byte at an odd offset is non-zero
(`not any(mv[1::2])`), decode as utf-16le; else if no byte at an even offset
is non-zero (`not any(mv[0::2])`), decode as utf-16be; otherwise consult the
`chardet`-based guesser. -/
def detect (guess : List Nat → String) (data : List Nat) : String :=
  if (stride2 (data.drop 1)).all (fun b => b == 0) then "utf-16le"
  else if (stride2 data).all (fun b => b == 0) then "utf-16be"
  else guess data

/-- The codec selection in `recode.process` (lines 54-57): the user-supplied
decode encoding when present, otherwise the detected one. -/
def processCodec (guess : List Nat → String) (decode : Option String)
    (data : List Nat) : String :=
  match decode with
  | some c => c
  | none => detect guess data

/-- Every byte at an odd offset of the input is zero. -/
def OddZero (data : List Nat) : Prop :=
  ∀ i, (h : i < data.length) → i % 2 = 1 → data[i] = 0

/-- Every byte at an even offset of the input is zero. -/
def EvenZero (data : List Nat) : Prop :=
  ∀ i, (h : i < data.length) → i % 2 = 0 → data[i] = 0

instance (data : List Nat) : Decidable (OddZero data) := by
  unfold OddZero; infer_instance

instance (data : List Nat) : Decidable (EvenZero data) := by
  unfold EvenZero; infer_instance

end Recode

namespace VStack

/-! ## Helper lemmas about the call-detection prefix -/

theorem callDetect_writes_eq (ev : WriteEv) (s : EmuState) :
    (callDetect ev s).writes = s.writes := by
  unfold callDetect
  split
  · split <;> rfl
  · rfl

theorem callDetect_waiting_eq (ev : WriteEv) (s : EmuState) :
    (callDetect ev s).waiting = s.waiting := by
  unfold callDetect
  split
  · split <;> rfl
  · rfl

theorem callDetect_ceiling_eq (ev : WriteEv) (s : EmuState)
    (h : ¬ (uvOf ev = s.address ∧ s.callstack = [])) :
    (callDetect ev s).stack_ceiling = s.stack_ceiling := by
  unfold callDetect
  split
  · next huv =>
    have hcs : ¬ s.callstack = [] := fun hc => h ⟨huv, hc⟩
    rw [if_neg hcs]
  · rfl

/-! ## C1 — architecture setup -/

/-- C1 counterexample: ARM-64 is in the spec's supported list, the emulator
back-end table knows it, yet the stack-pointer dictionary lookup in
`vstack.process` fails for it (its intended row is shadowed by the repeated
ARM-32 key), so per-entry-point setup aborts fatally instead of resolving an
SP register. -/
theorem c1_cex_arm64_sp_lookup_fails :
    Arch.ARM64 ∈ specSupported ∧ uc_arch Arch.ARM64 = (UcArch.ARM, UcMode.MThumb) ∧
    sp_lookup Arch.ARM64 = none ∧ setupResolvesSP Arch.ARM64 = false := by
  decide

/-- C1 (amended): per-entry-point setup resolves a stack-pointer register
exactly for x86-32, x86-64, ARM-32, MIPS-16/32/64 and SPARC-32/64; for
ARM-64 and PowerPC-32/64 — although the loader architecture table knows
them — the stack-pointer dictionary has no row, so setup fails fatally for
them as well as for anything outside the table. -/
theorem c1_amended_sp_resolution (a : Arch) :
    setupResolvesSP a = true ↔
      a ∈ [Arch.X8632, Arch.X8664, Arch.ARM32, Arch.MIPS16, Arch.MIPS32,
           Arch.MIPS64, Arch.SPARC32, Arch.SPARC64] := by
  cases a <;> decide

/-! ## C2 — writes with out-of-range size -/

/-- C2 counterexample: a write whose size lies outside `write_range` (and
which is not ceiling-suppressed) is not added to the interval set, but it
does not leave the waiting counter unchanged — the hook resets `waiting`
to 0 before it tests the size filter. -/
theorem c2_cex_small_write_resets_waiting :
    let s : EmuState :=
      { address := 0x100, waiting := 5, callstack := [], retaddr := none
      , stop := none, previous_address := 0, stack_ceiling := 0
      , writes := [(0x50, 0x55)] }
    let ev : WriteEv := ⟨0x2000, 1, 0, 0x7000, false⟩
    let cfg : Config := ⟨10, false, ⟨4, none⟩, ⟨5, none⟩⟩
    memRange ev.size cfg.write_range = false ∧
    ¬ ceilSupp (callDetect ev s) ev.addr ∧
    (hook_mem_write cfg ev s).writes = s.writes ∧
    s.waiting = 5 ∧ (hook_mem_write cfg ev s).waiting = 0 := by
  decide

/-- C2 (amended): a memory-write event whose size lies outside the
user-supplied `write_range` (and which does not hit the ceiling-suppression
check) adds nothing to the writes interval set, but it does reset the
waiting counter to zero — the reset happens before the size filter. -/
theorem c2_amended_small_write (cfg : Config) (ev : WriteEv) (s : EmuState)
    (hsup : ¬ ceilSupp (callDetect ev s) ev.addr)
    (hsz : memRange ev.size cfg.write_range = false) :
    (hook_mem_write cfg ev s).writes = s.writes ∧
    (hook_mem_write cfg ev s).waiting = 0 := by
  unfold hook_mem_write
  rw [if_neg hsup]
  rw [if_neg (by simp [hsz] : ¬ memRange ev.size cfg.write_range = true)]
  exact ⟨callDetect_writes_eq ev s, rfl⟩

/-- C2 witness: the amended statement at a concrete event. -/
theorem c2_amended_witness :
    (hook_mem_write ⟨10, false, ⟨2, none⟩, ⟨5, none⟩⟩ ⟨0x3000, 1, 0x41, 0x6000, false⟩
      { address := 0x200, waiting := 9, callstack := [], retaddr := none
      , stop := none, previous_address := 0, stack_ceiling := 0
      , writes := [] }).writes =
      ({ address := 0x200, waiting := 9, callstack := [], retaddr := none
       , stop := none, previous_address := 0, stack_ceiling := 0
       , writes := [] } : EmuState).writes ∧
    (hook_mem_write ⟨10, false, ⟨2, none⟩, ⟨5, none⟩⟩ ⟨0x3000, 1, 0x41, 0x6000, false⟩
      { address := 0x200, waiting := 9, callstack := [], retaddr := none
      , stop := none, previous_address := 0, stack_ceiling := 0
      , writes := [] }).waiting = 0 :=
  c2_amended_small_write _ _ _ (by decide) (by decide)

/-! ## C5 — false calls and the stack ceiling -/

/-- C5 counterexample: a false call (the entry instruction pushes its
fall-through address, emulation then falls through; the next code hook pops
the shadow call stack) leaves the call stack empty while `stack_ceiling`
still holds the SP captured at the push — it is not reset to 0, so the
region just below the captured SP stays suppressed. -/
theorem c5_cex_false_call_keeps_ceiling :
    let cfg : Config := ⟨10, false, ⟨1, none⟩, ⟨5, none⟩⟩
    let s1 := (hook_code cfg false 0x401000 5 true (initState 0x401000 none)).1
    let s2 := hook_mem_write cfg ⟨0x20FEC, 4, 0x401005, 0x20FF0, false⟩ s1
    let s3 := (hook_code cfg false 0x401005 1 true s2).1
    s3.callstack = [] ∧ s3.stack_ceiling = 0x20FF0 ∧ ¬ s3.stack_ceiling = 0 := by
  decide

/-- C5 (amended): when the code hook runs at the predicted fall-through
address with `retaddr` set (a false call) and a singleton shadow call
stack, it pops the stack — leaving it empty — and clears `retaddr`, but
`stack_ceiling` keeps its value (only the return branch resets it), so
subsequent writes just below the captured SP remain ceiling-suppressed. -/
theorem c5_amended_false_call (cfg : Config) (isize v : Nat) (s : EmuState)
    (hstop : ¬ s.stop = some s.address)
    (hret : s.retaddr.isSome)
    (hcs : s.callstack = [v])
    (hw : s.waiting ≤ cfg.wait) :
    (hook_code cfg false s.address isize true s).1.callstack = [] ∧
    (hook_code cfg false s.address isize true s).1.retaddr = none ∧
    (hook_code cfg false s.address isize true s).1.stack_ceiling = s.stack_ceiling ∧
    (hook_code cfg false s.address isize true s).2 = CodeSig.proceed := by
  unfold hook_code hook_code_body
  rw [if_neg hstop]
  simp only [Bool.false_eq_true, if_false, ne_eq, not_true_eq_false, hret, if_true,
    ite_false]
  rw [if_neg (by omega : ¬ s.waiting > cfg.wait)]
  simp only [hcs]
  split <;> simp

/-- C5 witness: the amended statement at a concrete state. -/
theorem c5_amended_witness :
    (hook_code ⟨10, true, ⟨1, none⟩, ⟨5, none⟩⟩ false 0x100 2 true
      { address := 0x100, waiting := 3, callstack := [0x900], retaddr := some 0x100
      , stop := none, previous_address := 0, stack_ceiling := 0x7777
      , writes := [] }).1.callstack = [] ∧
    (hook_code ⟨10, true, ⟨1, none⟩, ⟨5, none⟩⟩ false 0x100 2 true
      { address := 0x100, waiting := 3, callstack := [0x900], retaddr := some 0x100
      , stop := none, previous_address := 0, stack_ceiling := 0x7777
      , writes := [] }).1.retaddr = none ∧
    (hook_code ⟨10, true, ⟨1, none⟩, ⟨5, none⟩⟩ false 0x100 2 true
      { address := 0x100, waiting := 3, callstack := [0x900], retaddr := some 0x100
      , stop := none, previous_address := 0, stack_ceiling := 0x7777
      , writes := [] }).1.stack_ceiling =
      ({ address := 0x100, waiting := 3, callstack := [0x900], retaddr := some 0x100
       , stop := none, previous_address := 0, stack_ceiling := 0x7777
       , writes := [] } : EmuState).stack_ceiling ∧
    (hook_code ⟨10, true, ⟨1, none⟩, ⟨5, none⟩⟩ false 0x100 2 true
      { address := 0x100, waiting := 3, callstack := [0x900], retaddr := some 0x100
      , stop := none, previous_address := 0, stack_ceiling := 0x7777
      , writes := [] }).2 = CodeSig.proceed :=
  c5_amended_false_call _ 2 0x900 _ (by decide) (by decide) (by decide) (by decide)

/-! ## C8 — ceiling suppression -/

/-- C8 counterexample: a write event arriving with a positive stack ceiling
and an address inside the suppression window can still be recorded and reset
the waiting counter: if it is itself call-like (its value equals the
predicted fall-through address) while the shadow call stack is empty — a
state reachable after a false call — the hook first recaptures the ceiling
from the live SP, and the suppression test then runs against the new
ceiling, not the one the event arrived with. -/
theorem c8_cex_recaptured_ceiling :
    let s : EmuState :=
      { address := 0x500, waiting := 7, callstack := [], retaddr := none
      , stop := none, previous_address := 0, stack_ceiling := 0x1000
      , writes := [] }
    let ev : WriteEv := ⟨0xF80, 4, 0x500, 0x8000, false⟩
    let cfg : Config := ⟨10, false, ⟨1, none⟩, ⟨5, none⟩⟩
    (0 < s.stack_ceiling ∧ s.stack_ceiling - 0x200 ≤ ev.addr ∧
      ev.addr < s.stack_ceiling) ∧
    (hook_mem_write cfg ev s).waiting = 0 ∧ s.waiting = 7 ∧
    (hook_mem_write cfg ev s).writes = [(0xF80, 0xF85)] := by
  decide

/-- C8 (amended): a memory-write event arriving with a positive stack
ceiling and an address in the window below it is neither recorded nor allowed
to reset the waiting counter, provided the event is not itself a call-like
push with an empty shadow call stack (which would recapture the ceiling
before the suppression test runs). -/
theorem c8_amended_ceiling_suppression (cfg : Config) (ev : WriteEv) (s : EmuState)
    (hc : 0 < s.stack_ceiling)
    (hlo : s.stack_ceiling - 0x200 ≤ ev.addr)
    (hhi : ev.addr < s.stack_ceiling)
    (hrecap : ¬ (uvOf ev = s.address ∧ s.callstack = [])) :
    (hook_mem_write cfg ev s).writes = s.writes ∧
    (hook_mem_write cfg ev s).waiting = s.waiting := by
  have hceil := callDetect_ceiling_eq ev s hrecap
  unfold hook_mem_write
  rw [if_pos (by rw [ceilSupp, hceil]; exact ⟨hc, hlo, hhi⟩)]
  exact ⟨callDetect_writes_eq ev s, callDetect_waiting_eq ev s⟩

/-- C8 witness: the amended statement at a concrete event inside a tracked
call. -/
theorem c8_amended_witness :
    (hook_mem_write ⟨10, false, ⟨1, none⟩, ⟨5, none⟩⟩ ⟨0x8F00, 4, 0xDEAD, 0x8E00, false⟩
      { address := 0x700, waiting := 4, callstack := [0x700, 0x800], retaddr := none
      , stop := none, previous_address := 0, stack_ceiling := 0x9000
      , writes := [(0x10, 0x20)] }).writes =
      ({ address := 0x700, waiting := 4, callstack := [0x700, 0x800], retaddr := none
       , stop := none, previous_address := 0, stack_ceiling := 0x9000
       , writes := [(0x10, 0x20)] } : EmuState).writes ∧
    (hook_mem_write ⟨10, false, ⟨1, none⟩, ⟨5, none⟩⟩ ⟨0x8F00, 4, 0xDEAD, 0x8E00, false⟩
      { address := 0x700, waiting := 4, callstack := [0x700, 0x800], retaddr := none
      , stop := none, previous_address := 0, stack_ceiling := 0x9000
      , writes := [(0x10, 0x20)] }).waiting =
      ({ address := 0x700, waiting := 4, callstack := [0x700, 0x800], retaddr := none
       , stop := none, previous_address := 0, stack_ceiling := 0x9000
       , writes := [(0x10, 0x20)] } : EmuState).waiting :=
  c8_amended_ceiling_suppression _ _ _ (by decide) (by decide) (by decide) (by decide)

/-! ## C3 — the stack-region placer -/

theorem alignDown_le (k v : Int) (hk : 0 < k) : alignDown k v ≤ v := by
  have h := Int.emod_nonneg v (ne_of_gt hk)
  unfold alignDown
  omega

theorem alignDown_gt (k v : Int) (hk : 0 < k) : v - k < alignDown k v := by
  have h := Int.emod_lt_of_pos v hk
  unfold alignDown
  omega

theorem alignUp_ge (k v : Int) (hk : 0 < k) : v ≤ alignUp k v := by
  have h := alignDown_gt k (v + k - 1) hk
  unfold alignUp
  omega

/-- C3 counterexample: with a 32-bit pointer size, the default stack size
0x10000 and an image address space reaching up to 0xFFFE0000, the placer
returns A = 0xFFFE0000 — its first branch only checks that
A + stack_size fits below 2^32 — although A + 3*stack_size, the size the
driver actually maps at A, exceeds the addressable space. -/
theorem c3_cex_three_stacks_not_addressable :
    find_stack_location 0x10000 32 0x400000 0xFFFE0000 = some 0xFFFE0000 ∧
    ¬ ((0xFFFE0000 : Int) + 3 * 0x10000 ≤ 2 ^ 32) := by
  decide

/-- C3 (amended): whenever the placer returns an address A (given a
positive stack size and an image address space located within the
addressable range), the interval covering only the first stack_size bytes —
not 3*stack_size — is guaranteed to lie inside the addressable space and on
one side of the image's defined address space (hence disjoint from every
segment contained in it); otherwise the placer fails fatally. -/
theorem c3_amended_stack_location (stackSize : Int) (pointerSize : Nat)
    (lower upper A : Int)
    (hs : 0 < stackSize) (hl : 0 ≤ lower) (hlu : lower ≤ upper)
    (hub : upper ≤ 2 ^ pointerSize)
    (hres : find_stack_location stackSize pointerSize lower upper = some A) :
    0 ≤ A ∧ A + stackSize ≤ 2 ^ pointerSize ∧
    (A + stackSize ≤ lower ∨ upper ≤ A) := by
  unfold find_stack_location at hres
  by_cases h1 : alignUp stackSize upper + stackSize < 2 ^ pointerSize
  · rw [if_pos h1] at hres
    obtain rfl : alignUp stackSize upper = A := by
      simpa using hres
    have hge := alignUp_ge stackSize upper hs
    refine ⟨by omega, by omega, Or.inr hge⟩
  · rw [if_neg h1] at hres
    by_cases h2 : alignDown stackSize (lower - stackSize) > 0
    · rw [if_pos h2] at hres
      obtain rfl : alignDown stackSize (lower - stackSize) = A := by
        simpa using hres
      have hle := alignDown_le stackSize (lower - stackSize) hs
      refine ⟨by omega, by omega, Or.inl (by omega)⟩
    · rw [if_neg h2] at hres
      cases hres

/-- C3 witness: the amended statement at a concrete image layout. -/
theorem c3_amended_witness :
    (0 : Int) ≤ 0x500000 ∧ (0x500000 : Int) + 0x10000 ≤ 2 ^ 32 ∧
    ((0x500000 : Int) + 0x10000 ≤ 0x400000 ∨ (0x500000 : Int) ≤ 0x500000) :=
  c3_amended_stack_location 0x10000 32 0x400000 0x500000 0x500000
    (by decide) (by decide) (by decide) (by decide) (by decide)

/-! ## C4 — disjointness of the merged interval set -/

theorem mem_insertIvl (x y : Ivl) (l : List Ivl) :
    y ∈ insertIvl x l ↔ y = x ∨ y ∈ l := by
  induction l with
  | nil => simp [insertIvl]
  | cons a l ih =>
    unfold insertIvl
    split
    · simp
    · simp only [List.mem_cons, ih]
      tauto

theorem insertIvl_sorted (x : Ivl) (l : List Ivl) (h : SortedB l) :
    SortedB (insertIvl x l) := by
  induction l with
  | nil => simp [insertIvl, SortedB]
  | cons a l ih =>
    unfold SortedB at h ⊢
    rw [List.pairwise_cons] at h
    unfold insertIvl
    split
    · next hle =>
      rw [List.pairwise_cons]
      refine ⟨?_, by rw [List.pairwise_cons]; exact h⟩
      intro b hb
      rcases List.mem_cons.mp hb with rfl | hb
      · exact hle
      · exact le_trans hle (h.1 b hb)
    · next hgt =>
      rw [List.pairwise_cons]
      refine ⟨?_, ih h.2⟩
      intro b hb
      rcases (mem_insertIvl x b l).mp hb with rfl | hb
      · omega
      · exact h.1 b hb

theorem sortIvl_sorted (l : List Ivl) : SortedB (sortIvl l) := by
  induction l with
  | nil => exact List.Pairwise.nil
  | cons a l ih => exact insertIvl_sorted a (sortIvl l) ih

theorem mergeGo_begin (cur : Ivl) (l : List Ivl) (hs : SortedB (cur :: l)) :
    ∀ z ∈ mergeGo cur l, cur.1 ≤ z.1 := by
  induction l generalizing cur with
  | nil =>
    intro z hz
    simp only [mergeGo, List.mem_singleton] at hz
    subst hz
    exact le_rfl
  | cons j rest ih =>
    unfold SortedB at hs
    rw [List.pairwise_cons] at hs
    have hsj : SortedB (j :: rest) := hs.2
    unfold SortedB at hsj
    rw [List.pairwise_cons] at hsj
    intro z hz
    unfold mergeGo at hz
    split at hz
    · have hsort : SortedB ((cur.1, max cur.2 j.2) :: rest) := by
        unfold SortedB
        rw [List.pairwise_cons]
        exact ⟨fun b hb => hs.1 b (List.mem_cons_of_mem j hb), hsj.2⟩
      exact ih _ hsort z hz
    · rcases List.mem_cons.mp hz with rfl | hz
      · exact le_rfl
      · have h1 := ih j hs.2 z hz
        have h2 := hs.1 j (List.mem_cons_self j rest)
        omega

theorem mergeGo_separated (cur : Ivl) (l : List Ivl) (hs : SortedB (cur :: l)) :
    (mergeGo cur l).Pairwise (fun a b => a.2 ≤ b.1) := by
  induction l generalizing cur with
  | nil => simp [mergeGo]
  | cons j rest ih =>
    have hs' := hs
    unfold SortedB at hs'
    rw [List.pairwise_cons] at hs'
    unfold mergeGo
    split
    · next hlt =>
      have hsort : SortedB ((cur.1, max cur.2 j.2) :: rest) := by
        unfold SortedB
        rw [List.pairwise_cons]
        have hsj := hs'.2
        unfold SortedB at hsj
        rw [List.pairwise_cons] at hsj
        exact ⟨fun b hb => hs'.1 b (List.mem_cons_of_mem j hb), hsj.2⟩
      exact ih _ hsort
    · next hge =>
      rw [List.pairwise_cons]
      refine ⟨?_, ih j hs'.2⟩
      intro z hz
      have hjz := mergeGo_begin j rest hs'.2 z hz
      omega

theorem merge_overlaps_separated (l : List Ivl) :
    (merge_overlaps l).Pairwise (fun a b => a.2 ≤ b.1) := by
  unfold merge_overlaps
  have hs := sortIvl_sorted l
  match h : sortIvl l with
  | [] => exact List.Pairwise.nil
  | i :: rest =>
    rw [h] at hs
    exact mergeGo_separated i rest hs

theorem merge_overlaps_no_overlap (l : List Ivl) :
    NoOverlap (merge_overlaps l) := by
  refine (merge_overlaps_separated l).imp ?_
  intro a b hab hover
  simp only [overlaps, max_lt_iff, lt_min_iff] at hover
  omega

theorem hook_mem_write_writes_cases (cfg : Config) (ev : WriteEv) (s : EmuState) :
    (hook_mem_write cfg ev s).writes = s.writes ∨
    (hook_mem_write cfg ev s).writes = treeAdd ev.addr ev.size s.writes := by
  unfold hook_mem_write
  by_cases h1 : ceilSupp (callDetect ev s) ev.addr
  · rw [if_pos h1]
    exact Or.inl (callDetect_writes_eq ev s)
  · rw [if_neg h1]
    by_cases h2 : memRange ev.size cfg.write_range = true
    · rw [if_pos h2]
      refine Or.inr ?_
      show treeAdd ev.addr ev.size (callDetect ev s).writes =
        treeAdd ev.addr ev.size s.writes
      rw [callDetect_writes_eq ev s]
    · rw [if_neg h2]
      exact Or.inl (callDetect_writes_eq ev s)

/-- C4 counterexample: two recorded writes separated by a one-byte gap
(addresses 0 and 2, each of size 1) are stored as the intervals (0, 2) and
(2, 4); the merge step only fuses truly overlapping intervals, so the stored
set afterwards contains two intervals that touch (they share the
endpoint 2). -/
theorem c4_cex_touching_intervals :
    let cfg : Config := ⟨10, false, ⟨1, none⟩, ⟨5, none⟩⟩
    let s1 := hook_mem_write cfg ⟨0, 1, 7, 0x9000, false⟩ (initState 0x999 none)
    let s2 := hook_mem_write cfg ⟨2, 1, 7, 0x9000, false⟩ s1
    s2.writes = [(0, 2), (2, 4)] ∧ (0, 2) ∈ s2.writes ∧ (2, 4) ∈ s2.writes ∧
    touches (0, 2) (2, 4) := by
  decide

/-- C4 (amended): after any sequence of memory-write events, no two
intervals of the stored set overlap (share a point); they may still touch —
share exactly one endpoint — when the underlying writes are separated by
exactly one unwritten byte. -/
theorem c4_amended_no_overlap (cfg : Config) (evs : List WriteEv) (s0 : EmuState)
    (h0 : NoOverlap s0.writes) :
    NoOverlap ((evs.foldl (fun s ev => hook_mem_write cfg ev s) s0).writes) := by
  induction evs generalizing s0 with
  | nil => exact h0
  | cons ev evs ih =>
    rw [List.foldl_cons]
    refine ih (hook_mem_write cfg ev s0) ?_
    rcases hook_mem_write_writes_cases cfg ev s0 with h | h
    · rw [h]; exact h0
    · rw [h]; exact merge_overlaps_no_overlap _

/-- C4 witness: the amended statement over a concrete event sequence. -/
theorem c4_amended_witness :
    NoOverlap (([⟨0x40, 4, 0, 0x9000, false⟩, ⟨0x43, 2, 0, 0x9000, false⟩,
        ⟨0x90, 1, 0, 0x9000, false⟩] : List WriteEv).foldl
      (fun s ev => hook_mem_write ⟨10, false, ⟨1, none⟩, ⟨5, none⟩⟩ ev s)
      (initState 0x1234 none)).writes :=
  c4_amended_no_overlap _ _ _ List.Pairwise.nil

/-! ## C7 — halting by inactivity -/

set_option maxRecDepth 8000 in
theorem hook_code_plain (cfg : Config) (pc isize : Nat) (s : EmuState)
    (hcs : s.callstack = []) (hra : s.retaddr = none) (hst : s.stop = none) :
    (cfg.wait < s.waiting ∧
      (hook_code cfg false pc isize true s).2 = CodeSig.stopBefore) ∨
    (s.waiting ≤ cfg.wait ∧
      (hook_code cfg false pc isize true s).2 = CodeSig.proceed ∧
      (hook_code cfg false pc isize true s).1.callstack = [] ∧
      (hook_code cfg false pc isize true s).1.retaddr = none ∧
      (hook_code cfg false pc isize true s).1.stop = none ∧
      (hook_code cfg false pc isize true s).1.waiting = s.waiting + 1) := by
  by_cases hw : cfg.wait < s.waiting
  · left
    refine ⟨hw, ?_⟩
    unfold hook_code hook_code_body
    rw [hst]
    by_cases hpc : pc = s.address <;> simp [hcs, hra, hpc, hw]
  · right
    have hw' : ¬ s.waiting > cfg.wait := hw
    refine ⟨by omega, ?_⟩
    unfold hook_code hook_code_body
    rw [hst]
    by_cases hpc : pc = s.address <;> simp [hcs, hra, hpc, hw']

theorem run_no_writes (cfg : Config) (trace : List Instr) (s : EmuState)
    (m : Mem) (n : Nat)
    (hpl : ∀ i ∈ trace,
      i.decodable = true ∧ i.interrupted = false ∧ i.ucError = false ∧ i.writes = [])
    (hcs : s.callstack = []) (hra : s.retaddr = none) (hst : s.stop = none)
    (hwle : s.waiting ≤ cfg.wait + 1)
    (hlen : cfg.wait + 2 ≤ trace.length + s.waiting) :
    ∃ s', run cfg trace s m n =
      .ok ⟨n + (cfg.wait + 1 - s.waiting), s', m, RunEnd.hookStop⟩ := by
  induction trace generalizing s n with
  | nil =>
    exfalso
    simp only [List.length_nil, Nat.zero_add] at hlen
    omega
  | cons i rest ih =>
    obtain ⟨hdec, hint, huc, hwr⟩ := hpl i (List.mem_cons_self i rest)
    rcases hook_code_plain cfg i.pc i.isize s hcs hra hst with
      ⟨hgt, hsig⟩ | ⟨hle, hsig, h1, h2, h3, h4⟩
    · have hx : hook_code cfg false i.pc i.isize true s =
          ((hook_code cfg false i.pc i.isize true s).1, CodeSig.stopBefore) := by
        rw [← hsig]
      have hn : cfg.wait + 1 - s.waiting = 0 := by omega
      refine ⟨(hook_code cfg false i.pc i.isize true s).1, ?_⟩
      simp only [run]
      rw [hint, hdec, hx, hn]
      exact rfl
    · have hx : hook_code cfg false i.pc i.isize true s =
          ((hook_code cfg false i.pc i.isize true s).1, CodeSig.proceed) := by
        rw [← hsig]
      have hrec := ih ((hook_code cfg false i.pc i.isize true s).1) (n + 1)
        (fun j hj => hpl j (List.mem_cons_of_mem i hj)) h1 h2 h3
        (by omega) (by simp only [List.length_cons] at hlen; omega)
      rw [h4] at hrec
      obtain ⟨s'', hs''⟩ := hrec
      have harith : n + 1 + (cfg.wait + 1 - (s.waiting + 1)) =
          n + (cfg.wait + 1 - s.waiting) := by omega
      rw [harith] at hs''
      refine ⟨s'', ?_⟩
      simp only [run]
      rw [hint, hdec, hx, huc, hwr]
      exact hs''

/-- C7 counterexample: a run whose only write has a size outside
`write_range` (hence no qualifying write occurs at all) does not halt after
wait + 1 executed instructions from the entry: the non-qualifying write still
resets the waiting counter (the reset precedes the size filter), so with
wait = 1 the emulator executes 3 instructions instead of 2 before the hook
stops it. -/
theorem c7_cex_nonqualifying_write_delays_halt :
    let cfg : Config := ⟨1, false, ⟨4, none⟩, ⟨5, none⟩⟩
    let trace : List Instr :=
      [⟨0x1000, 1, true, false, false, [⟨0x9000, 1, 0, 0x8000, false⟩]⟩,
       ⟨0x1001, 1, true, false, false, []⟩,
       ⟨0x1002, 1, true, false, false, []⟩,
       ⟨0x1003, 1, true, false, false, []⟩]
    (∀ i ∈ trace, ∀ ev ∈ i.writes, memRange ev.size cfg.write_range = false) ∧
    ((run cfg trace (initState 0x1000 none) (fun _ => 0) 0).toOption.map
      (fun r => (r.executed, r.ending))) = some (3, RunEnd.hookStop) ∧
    ¬ (3 = cfg.wait + 1) := by
  decide

/-- C7 (amended): if the emulated code performs no memory-write events at
all (straight-line plain instructions), emulation halts by the inactivity
heuristic after exactly wait + 1 executed instructions from the entry point.
When writes do occur, the count restarts after the last write that reaches
the waiting reset — any write outside the ceiling-suppressed window,
regardless of whether its size passes `write_range` — not only after
qualifying writes. -/
theorem c7_amended_wait_halt (cfg : Config) (trace : List Instr) (entry : Nat)
    (m : Mem)
    (hpl : ∀ i ∈ trace,
      i.decodable = true ∧ i.interrupted = false ∧ i.ucError = false ∧ i.writes = [])
    (hlen : cfg.wait + 2 ≤ trace.length) :
    ∃ s', run cfg trace (initState entry none) m 0 =
      .ok ⟨cfg.wait + 1, s', m, RunEnd.hookStop⟩ := by
  have h := run_no_writes cfg trace (initState entry none) m 0 hpl rfl rfl rfl
    (by simp [initState]) (by simpa [initState] using hlen)
  simpa [initState] using h

/-- C7 witness: the amended statement on a concrete four-instruction trace
with wait = 2. -/
theorem c7_amended_witness :
    ∃ s', run ⟨2, false, ⟨1, none⟩, ⟨5, none⟩⟩
      [⟨0x1000, 1, true, false, false, []⟩, ⟨0x1001, 1, true, false, false, []⟩,
       ⟨0x1002, 1, true, false, false, []⟩, ⟨0x1003, 1, true, false, false, []⟩]
      (initState 0x1000 none) (fun _ => 0) 0 =
      .ok ⟨3, s', fun _ => 0, RunEnd.hookStop⟩ :=
  c7_amended_wait_halt _ _ 0x1000 _ (by decide) (by decide)

/-! ## C6 — host cancellation during emulation -/

theorem run_append (cfg : Config) (a b : List Instr) (s : EmuState) (m : Mem)
    (n : Nat) :
    run cfg (a ++ b) s m n =
      match run cfg a s m n with
      | .error e => .error e
      | .ok r =>
        if r.ending = RunEnd.outOfCode then run cfg b r.state r.mem r.executed
        else .ok r := by
  induction a generalizing s m n with
  | nil => simp [run]
  | cons i rest ih =>
    simp only [List.cons_append, run]
    rcases hhc : hook_code cfg i.interrupted i.pc i.isize i.decodable s with ⟨s', sig⟩
    cases sig
    · by_cases huc : i.ucError = true
      · simp [huc]
      · simp only [Bool.not_eq_true] at huc
        simp only [huc, Bool.false_eq_true, if_false]
        rcases hew : execWrites cfg i.writes (s', m) with e | ⟨s'', m'⟩
        · simp
        · exact ih s'' m' (n + 1)
    · simp
    · simp

/-- C6 counterexample: a host interrupt delivered inside the code hook's
guarded block is caught by the hook's own handler; the emulator is stopped,
nothing propagates out of the unit, and the entry point's partial results —
here the six bytes recorded before the interrupt — are harvested and
emitted instead of discarded. -/
theorem c6_cex_interrupt_swallowed_and_emitted :
    let cfg : Config := ⟨10, false, ⟨1, none⟩, ⟨5, none⟩⟩
    let trace : List Instr :=
      [⟨0x1000, 2, true, false, false, [⟨0x20F00, 6, 0, 0x20FF0, false⟩]⟩,
       ⟨0x1002, 1, true, true, false, []⟩]
    (trace.get? 1).map Instr.interrupted = some true ∧
    processEntry cfg trace (initState 0x1000 none) (fun _ => 0) =
      .ok [⟨0x20F00, 6, [0, 0, 0, 0, 0, 0]⟩] :=
  ⟨rfl, rfl⟩

/-- C6 (amended): a host interrupt delivered inside the code hook's guarded
block (the only interrupt handler the unit installs) makes the hook stop the
emulator and swallow the interrupt: the run ends like a hook-initiated halt
and the current entry point's partial results are harvested and emitted, not
discarded; no cancellation propagates out of the unit from this path. -/
theorem c6_amended_interrupt_in_code_hook (cfg : Config) (pre : List Instr)
    (i : Instr) (post : List Instr) (s0 : EmuState) (m0 : Mem) (r : RunResult)
    (hpre : run cfg pre s0 m0 0 = .ok r) (hend : r.ending = RunEnd.outOfCode)
    (hint : i.interrupted = true) (hstop : ¬ r.state.stop = some i.pc) :
    processEntry cfg (pre ++ i :: post) s0 m0 =
      .ok (harvest cfg.patch_range r.state.writes r.mem) := by
  unfold processEntry
  rw [run_append, hpre]
  simp only [hend, if_pos]
  simp only [run, hook_code]
  rw [if_neg hstop, hint]
  exact rfl

/-- C6 witness: the amended statement at a concrete interrupted trace. -/
theorem c6_amended_witness :
    processEntry ⟨10, false, ⟨1, none⟩, ⟨5, none⟩⟩
      ([] ++ ⟨0x2000, 1, true, true, false, []⟩ :: [])
      (initState 0x2000 none) (fun _ => 0) =
      .ok (harvest (⟨5, none⟩ : SizeRange) (initState 0x2000 none).writes
        (fun _ => 0)) :=
  c6_amended_interrupt_in_code_hook _ [] _ [] _ _
    ⟨0, initState 0x2000 none, fun _ => 0, RunEnd.outOfCode⟩ rfl rfl rfl
    (by decide)

/-! ## C9 — harvesting on every termination path -/

/-- No host interrupt occurs anywhere in the trace. -/
def noInterrupts (trace : List Instr) : Prop :=
  ∀ i ∈ trace, i.interrupted = false ∧ ∀ w ∈ i.writes, w.interrupted = false

instance (trace : List Instr) : Decidable (noInterrupts trace) := by
  unfold noInterrupts; infer_instance

theorem execWrites_ok (cfg : Config) (ws : List WriteEv) (s : EmuState) (m : Mem)
    (h : ∀ w ∈ ws, w.interrupted = false) :
    ∃ p, execWrites cfg ws (s, m) = .ok p := by
  induction ws generalizing s m with
  | nil => exact ⟨(s, m), rfl⟩
  | cons w ws ih =>
    have hw := h w (List.mem_cons_self w ws)
    simp only [execWrites, hw, Bool.false_eq_true, if_false]
    exact ih (hook_mem_write cfg w s) (writeMem m w)
      (fun w' hw' => h w' (List.mem_cons_of_mem w hw'))

theorem run_total (cfg : Config) (trace : List Instr) (s : EmuState) (m : Mem)
    (n : Nat) (h : noInterrupts trace) :
    ∃ r, run cfg trace s m n = .ok r := by
  induction trace generalizing s m n with
  | nil => exact ⟨⟨n, s, m, .outOfCode⟩, rfl⟩
  | cons i rest ih =>
    obtain ⟨hint, hws⟩ := h i (List.mem_cons_self i rest)
    simp only [run]
    rcases hhc : hook_code cfg i.interrupted i.pc i.isize i.decodable s with ⟨s', sig⟩
    cases sig
    · by_cases huc : i.ucError = true
      · exact ⟨⟨n, s', m, .ucErr⟩, by simp [huc]⟩
      · simp only [Bool.not_eq_true] at huc
        obtain ⟨⟨s'', m'⟩, hew⟩ := execWrites_ok cfg i.writes s' m hws
        obtain ⟨r, hr⟩ := ih s'' m' (n + 1)
          (fun j hj => h j (List.mem_cons_of_mem i hj))
        refine ⟨r, ?_⟩
        simp only [huc, Bool.false_eq_true, if_false, hew]
        exact hr
    · exact ⟨⟨n, s', m, .hookStop⟩, rfl⟩
    · exact ⟨⟨n, s', m, .decodeStop⟩, rfl⟩

theorem harvest_mem_spec (pr : SizeRange) (ws : List Ivl) (m : Mem) (p : Patch)
    (hp : p ∈ harvest pr ws m) :
    memRange p.size pr = true ∧ p.bytes = memRead m p.start p.size ∧
    ∃ iv ∈ ws, iv.1 = p.start ∧ iv.2 - iv.1 - 1 = p.size := by
  unfold harvest at hp
  rw [List.mem_filterMap] at hp
  obtain ⟨iv, hiv, heq⟩ := hp
  by_cases h : memRange (iv.2 - iv.1 - 1) pr = true
  · rw [if_pos h] at heq
    obtain rfl : (⟨iv.1, iv.2 - iv.1 - 1, memRead m iv.1 (iv.2 - iv.1 - 1)⟩ : Patch) = p :=
      Option.some.inj heq
    exact ⟨h, rfl, iv, hiv, rfl, rfl⟩
  · rw [if_neg h] at heq
    cases heq

/-- C9: whatever way a run terminates — trace exhausted, hook-initiated
halt, disassembler refusal, or an emulator error from start, which the
driver's handler swallows — the driver harvests the recorded interval set
the same way: it emits, in interval order, exactly those regions whose size
e - b - 1 lies in `patch_range`, with their bytes read back from emulator
memory. -/
theorem c9_harvest_on_all_endings (cfg : Config) (trace : List Instr)
    (s0 : EmuState) (m0 : Mem) (h : noInterrupts trace) :
    ∃ r, run cfg trace s0 m0 0 = .ok r ∧
      processEntry cfg trace s0 m0 =
        .ok (harvest cfg.patch_range r.state.writes r.mem) ∧
      ∀ p ∈ harvest cfg.patch_range r.state.writes r.mem,
        memRange p.size cfg.patch_range = true ∧
        p.bytes = memRead r.mem p.start p.size ∧
        ∃ iv ∈ r.state.writes, iv.1 = p.start ∧ iv.2 - iv.1 - 1 = p.size := by
  obtain ⟨r, hr⟩ := run_total cfg trace s0 m0 0 h
  refine ⟨r, hr, ?_, fun p hp => harvest_mem_spec _ _ _ p hp⟩
  unfold processEntry
  rw [hr]

/-- C9 witness: the property at a concrete trace whose second instruction
raises an emulator error from start (the swallowed-UcError leg). -/
theorem c9_witness :
    ∃ r, run ⟨10, false, ⟨1, none⟩, ⟨5, none⟩⟩
        [⟨0x1000, 2, true, false, false, [⟨0x20F00, 6, 0x414243444546, 0x20FF0, false⟩]⟩,
         ⟨0x1002, 1, true, false, true, []⟩]
        (initState 0x1000 none) (fun _ => 0) 0 = .ok r ∧
      processEntry ⟨10, false, ⟨1, none⟩, ⟨5, none⟩⟩
        [⟨0x1000, 2, true, false, false, [⟨0x20F00, 6, 0x414243444546, 0x20FF0, false⟩]⟩,
         ⟨0x1002, 1, true, false, true, []⟩]
        (initState 0x1000 none) (fun _ => 0) =
        .ok (harvest (⟨5, none⟩ : SizeRange) r.state.writes r.mem) ∧
      ∀ p ∈ harvest (⟨5, none⟩ : SizeRange) r.state.writes r.mem,
        memRange p.size ⟨5, none⟩ = true ∧
        p.bytes = memRead r.mem p.start p.size ∧
        ∃ iv ∈ r.state.writes, iv.1 = p.start ∧ iv.2 - iv.1 - 1 = p.size :=
  c9_harvest_on_all_endings _ _ _ _ (by decide)

end VStack

namespace Recode

/-! ## C10 — encoding detection priority -/

theorem stride2_all_zero (l : List Nat) :
    ((stride2 l).all (fun b => b == 0) = true) ↔
      ∀ i, (h : i < l.length) → i % 2 = 0 → l[i] = 0 := by
  induction l using stride2.induct with
  | case1 =>
    simp [stride2]
  | case2 a =>
    simp only [stride2, List.all_cons, List.all_nil, Bool.and_true, beq_iff_eq,
      List.length_singleton]
    constructor
    · intro ha i hlt _
      interval_cases i
      · exact ha
    · intro h
      exact h 0 (by omega) rfl
  | case3 a b rest ih =>
    simp only [stride2, List.all_cons, Bool.and_eq_true, beq_iff_eq, ih,
      List.length_cons]
    constructor
    · rintro ⟨ha, hrest⟩ i hlt hev
      match i with
      | 0 => exact ha
      | 1 => omega
      | (k + 2) =>
        have hk : k < rest.length := by omega
        have := hrest k hk (by omega)
        simpa using this
    · intro h
      refine ⟨h 0 (by omega) rfl, fun k hk hke => ?_⟩
      have := h (k + 2) (by omega) (by omega)
      simpa using this

theorem even_zero_iff (data : List Nat) :
    ((stride2 data).all (fun b => b == 0) = true) ↔ EvenZero data :=
  stride2_all_zero data

theorem odd_zero_iff (data : List Nat) :
    ((stride2 (data.drop 1)).all (fun b => b == 0) = true) ↔ OddZero data := by
  cases data with
  | nil =>
    simp only [List.drop_nil]
    rw [stride2_all_zero]
    unfold OddZero
    simp
  | cons a rest =>
    have hdrop : (a :: rest).drop 1 = rest := rfl
    rw [hdrop, stride2_all_zero]
    unfold OddZero
    constructor
    · intro h i hlt hodd
      match i with
      | 0 => omega
      | (k + 1) =>
        have hk : k < rest.length := by
          simpa using hlt
        have := h k hk (by omega)
        simpa using this
    · intro h k hk hke
      have := h (k + 1) (by simpa using Nat.succ_lt_succ hk) (by omega)
      simpa using this

/-- C10: with no decode encoding specified, the recode unit first tests
whether every byte at an odd offset is zero (true for the empty and the
all-zero input, so they decode as utf-16le), then whether every byte at an
even offset is zero (utf-16be), and only when both tests fail does it
consult the chardet-based guesser. -/
theorem c10_detect_priority (guess : List Nat → String) (data : List Nat) :
    (OddZero data → processCodec guess none data = "utf-16le") ∧
    (¬ OddZero data → EvenZero data → processCodec guess none data = "utf-16be") ∧
    (¬ OddZero data → ¬ EvenZero data → processCodec guess none data = guess data) := by
  unfold processCodec detect
  refine ⟨fun h => ?_, fun h1 h2 => ?_, fun h1 h2 => ?_⟩
  · rw [if_pos ((odd_zero_iff data).mpr h)]
  · rw [if_neg (fun hc => h1 ((odd_zero_iff data).mp hc)),
      if_pos ((even_zero_iff data).mpr h2)]
  · rw [if_neg (fun hc => h1 ((odd_zero_iff data).mp hc)),
      if_neg (fun hc => h2 ((even_zero_iff data).mp hc))]

/-- C10 witness: the detection at concrete inputs exercising all three
branches. -/
theorem c10_witness :
    Recode.processCodec (fun _ => "latin-1") none [72, 0, 105, 0] = "utf-16le" ∧
    Recode.processCodec (fun _ => "latin-1") none [0, 72, 0, 105] = "utf-16be" ∧
    Recode.processCodec (fun _ => "latin-1") none [72, 105, 0, 0] = "latin-1" :=
  ⟨(c10_detect_priority _ _).1 (by decide),
   (c10_detect_priority _ _).2.1 (by decide) (by decide),
   (c10_detect_priority _ _).2.2 (by decide) (by decide)⟩

end Recode
